import Mathlib

/-!
# Verification of the bokeh array serialization core

This file gives a shallow embedding, in Lean 4, of the array
transform/encode/decode pipeline of `bokeh/util/serialization.py`
(dtype classification, non-finite sanitization, the binary-vs-list
encoding decision, base64 packing/unpacking, nested traversal and the
column-set codec), and proves the specified properties about it.

Modelling conventions:
* machine bytes are natural numbers (well-formedness `< 256` is carried
  as an explicit hypothesis where it matters);
* Python/numpy floating scalars are modelled by `FVal`: either a finite
  rational value or one of the three non-finite values NaN, +Inf, -Inf
  (the sanitizer and the temporal normalizer only ever discriminate
  finiteness and divide by constants, which the rational model captures
  exactly);
* the byte-level binary codec (`BinCodec`) models arrays as raw byte
  buffers, exactly what `encode_base64_dict`/`decode_base64_dict` see;
* the value-level pipeline (`Pipeline`) models arrays as flat row-major
  element lists with shape metadata, exactly what the list path,
  the temporal normalizer and the traversal see.  In that namespace the
  base64 dict produced by `encode_base64_dict` is abstracted as the
  `PyVal.envelope` constructor carrying the encoded array; its byte-level
  content is the subject of the `BinCodec` namespace.
-/

/-- Element-kind classification mirroring numpy `dtype.kind` characters
(`u`, `i`, `f`, `b`, `O`, `M`, `m`). -/
inductive Kind where
  | unsignedInt
  | signedInt
  | floating
  | booleanKind
  | objectKind
  | datetimeKind
  | timedeltaKind
deriving DecidableEq, Repr

/-- The closed enumeration of element dtypes the codec distinguishes. -/
inductive Dtype where
  | float32
  | float64
  | uint8
  | int8
  | uint16
  | int16
  | uint32
  | int32
  | int64
  | uint64
  | float16
  | boolDt
  | objectDt
  | datetime64
  | timedelta64
deriving DecidableEq, Repr

/-- numpy `dtype.kind` of each dtype. -/
def Dtype.kind : Dtype → Kind
  | .uint8 | .uint16 | .uint32 | .uint64 => .unsignedInt
  | .int8 | .int16 | .int32 | .int64 => .signedInt
  | .float16 | .float32 | .float64 => .floating
  | .boolDt => .booleanKind
  | .objectDt => .objectKind
  | .datetime64 => .datetimeKind
  | .timedelta64 => .timedeltaKind

/-- numpy `dtype.itemsize`: the byte width of one element. -/
def Dtype.itemsize : Dtype → Nat
  | .float32 => 4
  | .float64 => 8
  | .uint8 => 1
  | .int8 => 1
  | .uint16 => 2
  | .int16 => 2
  | .uint32 => 4
  | .int32 => 4
  | .int64 => 8
  | .uint64 => 8
  | .float16 => 2
  | .boolDt => 1
  | .objectDt => 8
  | .datetime64 => 8
  | .timedelta64 => 8

theorem Dtype.itemsize_pos (d : Dtype) : 0 < d.itemsize := by
  cases d <;> simp [Dtype.itemsize]

/-- The module-level `array_types` whitelist of binary-eligible dtypes. -/
def array_types : List Dtype :=
  [.float32, .float64, .uint8, .int8, .uint16, .int16, .uint32, .int32]

/-- The read-only configuration toggles consumed from `bokeh.settings`. -/
structure Settings where
  use_binary_arrays : Bool
  binary_array_cutoff : Nat
deriving DecidableEq, Repr

/-- A Python/numpy floating scalar: a finite rational value or one of the
three non-finite values.  `np.isnan`, `np.isposinf`, `np.isneginf` and
`np.isfinite` are exactly the constructor discriminators. -/
inductive FVal where
  | finite (q : ℚ)
  | nan
  | posinf
  | neginf
deriving DecidableEq, Repr

/-- `np.isfinite` on one scalar. -/
def FVal.isfinite : FVal → Bool
  | .finite _ => true
  | _ => false

/-- `np.isnan` on one scalar. -/
def FVal.isnan : FVal → Bool
  | .nan => true
  | _ => false

/-- `np.isposinf` on one scalar. -/
def FVal.isposinf : FVal → Bool
  | .posinf => true
  | _ => false

/-- `np.isneginf` on one scalar. -/
def FVal.isneginf : FVal → Bool
  | .neginf => true
  | _ => false

namespace BinCodec

/-! ## Byte-level binary codec

`encode_base64_dict` / `decode_base64_dict` and the base64 packing they
delegate to (`base64.b64encode` / `base64.b64decode`).  Arrays are raw
byte buffers together with dtype and shape metadata, which is all these
functions inspect. -/

/-- One character of the standard base64 alphabet, as its ASCII code. -/
def b64encChar (n : Nat) : Nat :=
  if n < 26 then 65 + n
  else if n < 52 then 97 + (n - 26)
  else if n < 62 then 48 + (n - 52)
  else if n = 62 then 43
  else 47

/-- Inverse of the base64 alphabet; `none` on a character outside it. -/
def b64decChar (c : Nat) : Option Nat :=
  if 65 ≤ c ∧ c ≤ 90 then some (c - 65)
  else if 97 ≤ c ∧ c ≤ 122 then some (26 + (c - 97))
  else if 48 ≤ c ∧ c ≤ 57 then some (52 + (c - 48))
  else if c = 43 then some 62
  else if c = 47 then some 63
  else none

theorem b64decChar_b64encChar : ∀ n, n < 64 → b64decChar (b64encChar n) = some n := by
  decide

theorem b64encChar_ne_pad : ∀ n, n < 64 → b64encChar n ≠ 61 := by
  decide

/-- `base64.b64encode` on a byte list: groups of three bytes become four
alphabet characters, a trailing group of one or two bytes is padded
with `=` (ASCII 61). -/
def b64encode : List Nat → List Nat
  | [] => []
  | [b0] => [b64encChar (b0 / 4), b64encChar (b0 % 4 * 16), 61, 61]
  | [b0, b1] =>
      [b64encChar (b0 / 4), b64encChar (b0 % 4 * 16 + b1 / 16),
       b64encChar (b1 % 16 * 4), 61]
  | b0 :: b1 :: b2 :: rest =>
      b64encChar (b0 / 4) :: b64encChar (b0 % 4 * 16 + b1 / 16) ::
      b64encChar (b1 % 16 * 4 + b2 / 64) :: b64encChar (b2 % 64) :: b64encode rest

/-- `base64.b64decode` on a well-formed base64 text (length a multiple of
four, `=` only as final padding); `none` on malformed input. -/
def b64decode : List Nat → Option (List Nat)
  | [] => some []
  | c0 :: c1 :: c2 :: c3 :: rest =>
      if c2 = 61 ∧ c3 = 61 ∧ rest = [] then
        match b64decChar c0, b64decChar c1 with
        | some s0, some s1 => some [s0 * 4 + s1 / 16]
        | _, _ => none
      else if c3 = 61 ∧ rest = [] then
        match b64decChar c0, b64decChar c1, b64decChar c2 with
        | some s0, some s1, some s2 =>
            some [s0 * 4 + s1 / 16, s1 % 16 * 16 + s2 / 4]
        | _, _, _ => none
      else
        match b64decChar c0, b64decChar c1, b64decChar c2, b64decChar c3,
              b64decode rest with
        | some s0, some s1, some s2, some s3, some tl =>
            some ((s0 * 4 + s1 / 16) :: (s1 % 16 * 16 + s2 / 4) ::
                  (s2 % 4 * 64 + s3) :: tl)
        | _, _, _, _, _ => none
  | _ => none

theorem b64decode_b64encode :
    ∀ bs : List Nat, (∀ b ∈ bs, b < 256) → b64decode (b64encode bs) = some bs := by
  have key : ∀ (n : Nat) (bs : List Nat), bs.length ≤ n →
      (∀ b ∈ bs, b < 256) → b64decode (b64encode bs) = some bs := by
    intro n
    induction n with
    | zero =>
      intro bs hlen _
      have : bs = [] := List.length_eq_zero.mp (Nat.le_zero.mp hlen)
      subst this
      rfl
    | succ n ih =>
      intro bs hlen hb
      match bs with
      | [] => rfl
      | [b0] =>
        have h0 : b0 < 256 := hb b0 (by simp)
        have e0 : b0 / 4 < 64 := by omega
        have e1 : b0 % 4 * 16 < 64 := by omega
        simp only [b64encode, b64decode]
        rw [if_pos (by simp)]
        rw [b64decChar_b64encChar _ e0, b64decChar_b64encChar _ e1]
        show some [b0 / 4 * 4 + b0 % 4 * 16 / 16] = some [b0]
        simp only [Option.some.injEq, List.cons.injEq, and_true]
        omega
      | [b0, b1] =>
        have h0 : b0 < 256 := hb b0 (by simp)
        have h1 : b1 < 256 := hb b1 (by simp)
        have e0 : b0 / 4 < 64 := by omega
        have e1 : b0 % 4 * 16 + b1 / 16 < 64 := by omega
        have e2 : b1 % 16 * 4 < 64 := by omega
        simp only [b64encode, b64decode]
        rw [if_neg (by
          intro hcontra
          exact b64encChar_ne_pad _ e2 hcontra.1)]
        rw [if_pos (by simp)]
        rw [b64decChar_b64encChar _ e0, b64decChar_b64encChar _ e1,
            b64decChar_b64encChar _ e2]
        show some [b0 / 4 * 4 + (b0 % 4 * 16 + b1 / 16) / 16,
            (b0 % 4 * 16 + b1 / 16) % 16 * 16 + b1 % 16 * 4 / 4] = some [b0, b1]
        simp only [Option.some.injEq, List.cons.injEq, and_true]
        omega
      | b0 :: b1 :: b2 :: b3 :: rest =>
        -- four or more bytes: the head group of three encodes to four
        -- alphabet characters followed by the encoding of the tail
        have h0 : b0 < 256 := hb b0 (by simp)
        have h1 : b1 < 256 := hb b1 (by simp)
        have h2 : b2 < 256 := hb b2 (by simp)
        have e0 : b0 / 4 < 64 := by omega
        have e1 : b0 % 4 * 16 + b1 / 16 < 64 := by omega
        have e2 : b1 % 16 * 4 + b2 / 64 < 64 := by omega
        have e3 : b2 % 64 < 64 := by omega
        have hrest : (b3 :: rest).length ≤ n := by
          simp only [List.length_cons] at hlen ⊢
          omega
        have hbrest : ∀ b ∈ b3 :: rest, b < 256 := by
          intro b hbmem
          exact hb b (by simp [hbmem])
        have ihr := ih (b3 :: rest) hrest hbrest
        have henc : b64encode (b0 :: b1 :: b2 :: b3 :: rest) =
            b64encChar (b0 / 4) :: b64encChar (b0 % 4 * 16 + b1 / 16) ::
            b64encChar (b1 % 16 * 4 + b2 / 64) :: b64encChar (b2 % 64) ::
            b64encode (b3 :: rest) := rfl
        rw [henc]
        have hne : b64encode (b3 :: rest) ≠ [] := by
          match rest with
          | [] => simp [b64encode]
          | [y] => simp [b64encode]
          | y :: z :: r => simp [b64encode]
        simp only [b64decode]
        rw [if_neg (by
          intro hcontra
          exact b64encChar_ne_pad _ e2 hcontra.1)]
        rw [if_neg (by
          intro hcontra
          exact hne hcontra.2)]
        rw [b64decChar_b64encChar _ e0, b64decChar_b64encChar _ e1,
            b64decChar_b64encChar _ e2, b64decChar_b64encChar _ e3, ihr]
        show some ((b0 / 4 * 4 + (b0 % 4 * 16 + b1 / 16) / 16) ::
            ((b0 % 4 * 16 + b1 / 16) % 16 * 16 + (b1 % 16 * 4 + b2 / 64) / 4) ::
            ((b1 % 16 * 4 + b2 / 64) % 4 * 64 + b2 % 64) :: b3 :: rest) =
            some (b0 :: b1 :: b2 :: b3 :: rest)
        simp only [Option.some.injEq, List.cons.injEq, and_true, true_and]
        omega
      | [b0, b1, b2] =>
        have h0 : b0 < 256 := hb b0 (by simp)
        have h1 : b1 < 256 := hb b1 (by simp)
        have h2 : b2 < 256 := hb b2 (by simp)
        have e0 : b0 / 4 < 64 := by omega
        have e1 : b0 % 4 * 16 + b1 / 16 < 64 := by omega
        have e2 : b1 % 16 * 4 + b2 / 64 < 64 := by omega
        have e3 : b2 % 64 < 64 := by omega
        simp only [b64encode, b64decode]
        rw [if_neg (by
          intro hcontra
          exact b64encChar_ne_pad _ e2 hcontra.1)]
        rw [if_neg (by
          intro hcontra
          exact b64encChar_ne_pad _ e3 hcontra.1)]
        rw [b64decChar_b64encChar _ e0, b64decChar_b64encChar _ e1,
            b64decChar_b64encChar _ e2, b64decChar_b64encChar _ e3]
        show some [b0 / 4 * 4 + (b0 % 4 * 16 + b1 / 16) / 16,
            (b0 % 4 * 16 + b1 / 16) % 16 * 16 + (b1 % 16 * 4 + b2 / 64) / 4,
            (b1 % 16 * 4 + b2 / 64) % 4 * 64 + b2 % 64] = some [b0, b1, b2]
        simp only [Option.some.injEq, List.cons.injEq, and_true]
        omega
  intro bs
  exact key bs.length bs (Nat.le_refl _)

/-- A numpy array as the binary codec sees it: its dtype, its shape, and
its raw contiguous row-major byte buffer (`array.data`). -/
structure BArr where
  dtype : Dtype
  shape : List Nat
  data : List Nat
deriving DecidableEq, Repr

/-- Well-formedness of a byte-level array: every byte is below 256 and
the buffer length is element count times element width. -/
def BArr.wf (a : BArr) : Prop :=
  (∀ b ∈ a.data, b < 256) ∧ a.data.length = a.dtype.itemsize * a.shape.prod

/-- The Binary Envelope wire record
`\x7b __ndarray__: <base64 text>, shape: [...], dtype: <name> \x7d`.
The dtype field stands for the canonical dtype name string carried on
the wire. -/
structure Env where
  ndarray : List Nat
  shape : List Nat
  dtype : Dtype
deriving DecidableEq, Repr

/-- `encode_base64_dict`: base64-encode the raw bytes and record shape
and dtype name. -/
def encode_base64_dict (a : BArr) : Env :=
  { ndarray := b64encode a.data, shape := a.shape, dtype := a.dtype }

/-- `decode_base64_dict`: base64-decode the payload, reinterpret the
bytes as a linear buffer of the named dtype (`np.fromstring`, which
requires the byte length to be an exact multiple of the element width),
and reshape to the recorded shape only when that shape has more than
one dimension (`if len(data['shape']) > 1`). -/
def decode_base64_dict (e : Env) : Except String BArr :=
  match b64decode e.ndarray with
  | none => .error "binascii: invalid base64 data"
  | some bytes =>
    if bytes.length % e.dtype.itemsize ≠ 0 then
      .error "fromstring: string size must be a multiple of element size"
    else if 1 < e.shape.length then
      if e.shape.prod ≠ bytes.length / e.dtype.itemsize then
        .error "cannot reshape array"
      else .ok { dtype := e.dtype, shape := e.shape, data := bytes }
    else .ok { dtype := e.dtype, shape := [bytes.length / e.dtype.itemsize], data := bytes }

/-- Is an `Except` result an error? -/
def isError (r : Except String BArr) : Bool :=
  match r with
  | .error _ => true
  | .ok _ => false

/-- A JSON value on the decode side of the column codec: a Binary
Envelope record (a dict carrying the `__ndarray__` key), a decoded
numpy array, an ordered sequence, or any other value (scalars, strings,
dicts without the marker key), left opaque. -/
inductive DVal where
  | env (e : Env)
  | arr (a : BArr)
  | list (l : List DVal)
  | other (n : Nat)

/-- Does this value carry the `__ndarray__` marker key? -/
def DVal.isEnv : DVal → Bool
  | .env _ => true
  | _ => false

/-- The per-element step of the inner loop of `decode_column_data`: a
dict carrying `__ndarray__` is decoded, everything else is kept. -/
def decode_elem (el : DVal) : Except String DVal :=
  match el with
  | .env e => (decode_base64_dict e).map DVal.arr
  | el => .ok el

/-- The inner loop of `decode_column_data` over a list value; the first
raised decode error propagates. -/
def decode_elems : List DVal → Except String (List DVal)
  | [] => .ok []
  | el :: rest =>
      match decode_elem el with
      | .error err => .error err
      | .ok el2 =>
        match decode_elems rest with
        | .error err => .error err
        | .ok rest2 => .ok (el2 :: rest2)

/-- The per-value dispatch of `decode_column_data`: an envelope dict is
decoded, a list is walked one level, anything else passes through. -/
def decode_value (v : DVal) : Except String DVal :=
  match v with
  | .env e => (decode_base64_dict e).map DVal.arr
  | .list l => (decode_elems l).map DVal.list
  | v => .ok v

/-- `decode_column_data`: walk the column mapping (modelled as an
association list in iteration order) and decode embedded envelopes; the
first raised decode error propagates. -/
def decode_column_data : List (String × DVal) → Except String (List (String × DVal))
  | [] => .ok []
  | (k, v) :: rest =>
      match decode_value v with
      | .error err => .error err
      | .ok v2 =>
        match decode_column_data rest with
        | .error err => .error err
        | .ok rest2 => .ok ((k, v2) :: rest2)

end BinCodec

namespace Pipeline

/-! ## Value-level transform pipeline

`transform_array_to_list`, `encoding_disabled`, `serialize_array`,
`transform_array`, `traverse_data` and `transform_column_source_data`.
Arrays are flat row-major element lists with shape metadata.  Elements
of temporal dtypes carry their microsecond-resolution integer value (the
value produced by `astype` to microsecond resolution), elements of all
other dtypes their numeric value. -/

/-- A numpy array as the transform pipeline sees it. -/
structure NDArray where
  dtype : Dtype
  shape : List Nat
  vdata : List FVal
deriving DecidableEq, Repr

/-- A Python value in the pipeline output (and in traversal input):
numeric scalars (Python ints are finite numbers, so folding them into
the numeric leaf is behaviour-preserving for the traversal, whose float
branch is the identity on finite values), strings, opaque other scalars
(booleans, None, ...), lists, tuples, numpy arrays, and the Binary
Envelope dict produced by `encode_base64_dict` — abstracted here as a
constructor carrying the encoded array, whose byte-level wire content
is modelled in the `BinCodec` namespace. -/
inductive PyVal where
  | num (v : FVal)
  | str (s : String)
  | other (n : Nat)
  | list (l : List PyVal)
  | tuple (l : List PyVal)
  | arr (a : NDArray)
  | envelope (a : NDArray)

/-- Split a list into consecutive chunks of `k` elements (fuel-driven so
that the recursion is structural; `fuel = l.length` always suffices
when `k > 0`). -/
def chunksAux {α : Type} (k : Nat) : Nat → List α → List (List α)
  | 0, _ => []
  | _, [] => []
  | fuel + 1, l => l.take k :: chunksAux k fuel (l.drop k)

/-- Split a list into consecutive chunks of `k` elements. -/
def chunks {α : Type} (k : Nat) (l : List α) : List (List α) :=
  if k = 0 then [] else chunksAux k l.length l

/-- `ndarray.tolist` on an array given as its flat row-major element
list: a zero-dimensional array yields its sole scalar, a one-dimensional
array the flat list, and a higher-dimensional array a nested list built
from row-major chunks. -/
def tolist (shape : List Nat) (ws : List PyVal) : PyVal :=
  match shape with
  | [] => ws.headD (.num (.finite 0))
  | [_] => .list ws
  | _ :: n1 :: rest =>
      .list ((chunks ((n1 :: rest).prod) ws).map (fun c => tolist (n1 :: rest) c))

/-- Boolean-mask assignment `transformed[p(array)] = w` over the flat
element list: positions where `p` holds on the original array are
overwritten with `w`. -/
def mask_assign (p : FVal → Bool) (w : PyVal) (orig : List FVal) (cur : List PyVal) :
    List PyVal :=
  List.zipWith (fun v c => if p v then w else c) orig cur

/-- `array.dtype.kind in ('u', 'i', 'f')`. -/
def kindUIF (d : Dtype) : Bool :=
  match d.kind with
  | .unsignedInt | .signedInt | .floating => true
  | _ => false

/-- `transform_array_to_list`: when the element kind is numeric and some
element is non-finite, copy to a generic-object array and overwrite NaN
positions with the string NaN, positive-infinity positions with
Infinity and negative-infinity positions with -Infinity, then export
via `tolist`; otherwise export the array via `tolist` unchanged. -/
def transform_array_to_list (a : NDArray) : PyVal :=
  if kindUIF a.dtype && a.vdata.any (fun v => !v.isfinite) then
    tolist a.shape
      (mask_assign FVal.isneginf (.str "-Infinity") a.vdata
        (mask_assign FVal.isposinf (.str "Infinity") a.vdata
          (mask_assign FVal.isnan (.str "NaN") a.vdata
            (a.vdata.map PyVal.num))))
  else
    tolist a.shape (a.vdata.map PyVal.num)

/-- `encoding_disabled`: binary encoding is off when the global setting
is off, the dtype is outside the whitelist, or the element count
(`np.product(array.shape)`) is below the cutoff. -/
def encoding_disabled (a : NDArray) (s : Settings) : Bool :=
  if s.use_binary_arrays = false then true
  else if a.dtype ∉ array_types then true
  else decide (a.shape.prod < s.binary_array_cutoff)

/-- `encode_base64_dict` at the value level: the Binary Envelope dict,
abstracted as the `envelope` constructor (its base64/shape/dtype wire
content is the subject of `BinCodec.encode_base64_dict`). -/
def encode_base64_dict (a : NDArray) : PyVal :=
  .envelope a

/-- `serialize_array`: list fallback when encoding is disabled or a list
is forced, binary envelope otherwise.  Masked-array filling and the
contiguity copy of the source are identities here: value-level arrays
are plain and contiguous by construction. -/
def serialize_array (a : NDArray) (force_list : Bool) (s : Settings) : PyVal :=
  if encoding_disabled a s || force_list then transform_array_to_list a
  else encode_base64_dict a

/-- Divide a scalar by 1000 (`astype('int64') / 1000.`); non-finite
values are untouched. -/
def div1000 (v : FVal) : FVal :=
  match v with
  | .finite q => .finite (q / 1000)
  | v => v

/-- The temporal branch of `transform_array`: a datetime-kind array is
cast to microsecond-resolution integers and divided by 1000 into
fractional milliseconds (float64), and likewise a timedelta-kind array;
any other array passes through.  The legacy-numpy branch of the source
(`legacy_datetime64`) is statically false on target runtimes and is not
reproduced. -/
def temporal_normalize (obj : NDArray) : NDArray :=
  if obj.dtype.kind = .datetimeKind then
    { dtype := .float64, shape := obj.shape, vdata := obj.vdata.map div1000 }
  else if obj.dtype.kind = .timedeltaKind then
    { dtype := .float64, shape := obj.shape, vdata := obj.vdata.map div1000 }
  else obj

/-- `transform_array`: temporal normalization followed by
`serialize_array`. -/
def transform_array (obj : NDArray) (force_list : Bool) (s : Settings) : PyVal :=
  serialize_array (temporal_normalize obj) force_list s

/-- `isinstance(el, np.ndarray)`. -/
def isArr : PyVal → Bool
  | .arr _ => true
  | _ => false

mutual

/-- `traverse_data`: when every direct child is a numpy array, transform
each child; otherwise walk the children one by one. -/
def traverse_data (datum : List PyVal) (s : Settings) : List PyVal :=
  if datum.all isArr then
    datum.map (fun el =>
      match el with
      | .arr a => transform_array a false s
      | el => el)
  else traverse_items datum s
termination_by (sizeOf datum, 1)

/-- The element loop of `traverse_data`, building `datum_copy`. -/
def traverse_items (datum : List PyVal) (s : Settings) : List PyVal :=
  match datum with
  | [] => []
  | item :: rest => traverse_item item s :: traverse_items rest s
termination_by (sizeOf datum, 0)

/-- The loop body of `traverse_data`: recurse into lists and tuples
(rebuilding both as lists), replace non-finite floating scalars by their
sentinel strings, pass every other value through unchanged. -/
def traverse_item (item : PyVal) (s : Settings) : PyVal :=
  match item with
  | .list l => .list (traverse_data l s)
  | .tuple l => .list (traverse_data l s)
  | .num v =>
      if v.isnan then .str "NaN"
      else if v.isposinf then .str "Infinity"
      else if v.isneginf then .str "-Infinity"
      else .num v
  | item => item
termination_by (sizeOf item, 2)

end

/-- `transform_series`: extract the values array of a pandas
Series/Index and transform it. -/
def transform_series (a : NDArray) (s : Settings) : PyVal :=
  transform_array a false s

/-- A column payload of the column-set codec: a pandas Series/Index
(carrying its values array), a plain numpy array, or any other payload,
which is handed to the nested traversal. -/
inductive CVal where
  | series (a : NDArray)
  | array (a : NDArray)
  | nested (l : List PyVal)

/-- `transform_column_source_data`: build a new mapping, dispatching
each column by payload kind. -/
def transform_column_source_data (data : List (String × CVal)) (s : Settings) :
    List (String × PyVal) :=
  data.map (fun kv =>
    (kv.1,
      match kv.2 with
      | .series a => transform_series a s
      | .array a => transform_array a false s
      | .nested l => .list (traverse_data l s)))

mutual

/-- No tuple constructor occurs anywhere in a value. -/
def tupleFree : PyVal → Bool
  | .tuple _ => false
  | .list l => tupleFreeList l
  | _ => true

/-- No tuple constructor occurs anywhere in a list of values. -/
def tupleFreeList : List PyVal → Bool
  | [] => true
  | x :: xs => tupleFree x && tupleFreeList xs

end

/-- The elementwise effect of the three mask assignments of
`transform_array_to_list` on one original element: NaN becomes the
string NaN, the infinities their sentinel strings, and a finite value
stays numeric. -/
def sanitized_elem : FVal → PyVal
  | .nan => .str "NaN"
  | .posinf => .str "Infinity"
  | .neginf => .str "-Infinity"
  | .finite q => .num (.finite q)

/-- Is a value a Python list? -/
def isList : PyVal → Bool
  | .list _ => true
  | _ => false

end Pipeline


/-! ## Helper lemmas -/

theorem BinCodec.decode_encode (a : BinCodec.BArr)
    (h256 : ∀ x ∈ a.data, x < 256)
    (hlen : a.data.length = a.dtype.itemsize * a.shape.prod)
    (hdim : a.shape ≠ []) :
    BinCodec.decode_base64_dict (BinCodec.encode_base64_dict a) = Except.ok a := by
  obtain ⟨dt, shape, data⟩ := a
  simp only at h256 hlen hdim
  have hpos := dt.itemsize_pos
  have hmod : data.length % dt.itemsize = 0 := by
    rw [hlen]
    simp [Nat.mul_mod_right]
  have hdiv : data.length / dt.itemsize = shape.prod := by
    rw [hlen]
    exact Nat.mul_div_cancel_left _ hpos
  simp only [BinCodec.encode_base64_dict, BinCodec.decode_base64_dict]
  rw [BinCodec.b64decode_b64encode data h256]
  dsimp only
  rw [if_neg (by simp [hmod])]
  rcases shape with _ | ⟨n0, rest⟩
  · exact absurd rfl hdim
  rcases rest with _ | ⟨n1, rest2⟩
  · rw [if_neg (by simp)]
    simp [hdiv]
  · rw [if_pos (by simp)]
    rw [if_neg (by simp [hdiv])]

/-! ## Theorems on the claims -/

/-- C1 (amended): for every well-formed numpy array with at least one
dimension whose dtype is in the binary-eligible whitelist, whose element
count is at least the configured cutoff, and with binary arrays enabled
and force_list false, the transform takes the Binary Envelope path, and
decoding the envelope produced by `encode_base64_dict` yields an array
equal to the input bit-for-bit: same shape, same dtype, identical byte
content (hence identical NaN/Infinity bit patterns).  A zero-dimensional
array is excluded: it decodes to a one-dimensional array of one element. -/
theorem c1_binary_roundtrip (b : BinCodec.BArr) (s : Settings)
    (h256 : ∀ x ∈ b.data, x < 256)
    (hlen : b.data.length = b.dtype.itemsize * b.shape.prod)
    (hdim : b.shape ≠ [])
    (henabled : s.use_binary_arrays = true)
    (helig : b.dtype ∈ array_types)
    (hcut : s.binary_array_cutoff ≤ b.shape.prod) :
    (∀ v : Pipeline.NDArray, v.dtype = b.dtype → v.shape = b.shape →
      Pipeline.serialize_array v false s = Pipeline.PyVal.envelope v) ∧
    BinCodec.decode_base64_dict (BinCodec.encode_base64_dict b) = Except.ok b := by
  constructor
  · intro v hdt hsh
    have hnotlt : ¬ v.shape.prod < s.binary_array_cutoff := by
      rw [hsh]
      omega
    have hdisabled : Pipeline.encoding_disabled v s = false := by
      simp [Pipeline.encoding_disabled, henabled, hdt, helig, hnotlt]
    simp [Pipeline.serialize_array, hdisabled, Pipeline.encode_base64_dict]
  · exact BinCodec.decode_encode b h256 hlen hdim

/-- C1 witness: a three-element int32 array (cutoff 3, binary on) takes the
envelope path and round trips bit-for-bit, bytes including the two's
complement pattern of -1. -/
theorem c1_binary_roundtrip_witness :
    BinCodec.decode_base64_dict (BinCodec.encode_base64_dict
        ⟨.int32, [3], [1, 0, 0, 0, 2, 0, 0, 0, 255, 255, 255, 255]⟩) =
      Except.ok ⟨.int32, [3], [1, 0, 0, 0, 2, 0, 0, 0, 255, 255, 255, 255]⟩ ∧
    Pipeline.serialize_array ⟨.int32, [3], [.finite 1, .finite 2, .finite (-1)]⟩ false ⟨true, 3⟩ =
      Pipeline.PyVal.envelope ⟨.int32, [3], [.finite 1, .finite 2, .finite (-1)]⟩ := by
  have h := c1_binary_roundtrip ⟨.int32, [3], [1, 0, 0, 0, 2, 0, 0, 0, 255, 255, 255, 255]⟩
    ⟨true, 3⟩ (by decide) (by decide) (by decide) rfl (by decide) (by decide)
  exact ⟨h.2, h.1 _ rfl rfl⟩

/-- C1 counterexample: a zero-dimensional uint8 array (eligible dtype,
element count 1 ≥ cutoff 1, binary on, no force_list) takes the envelope
path, but decoding its envelope returns shape [1], not the recorded
shape [] — so the round trip is not shape-identical for every array. -/
theorem c1_zero_dim_counterexample :
    Pipeline.serialize_array ⟨.uint8, [], [.finite 7]⟩ false ⟨true, 1⟩ =
      Pipeline.PyVal.envelope ⟨.uint8, [], [.finite 7]⟩ ∧
    BinCodec.decode_base64_dict (BinCodec.encode_base64_dict ⟨.uint8, [], [7]⟩) =
      Except.ok ⟨.uint8, [1], [7]⟩ ∧
    BinCodec.BArr.mk .uint8 [1] [7] ≠ BinCodec.BArr.mk .uint8 [] [7] := by
  refine ⟨rfl, rfl, ?_⟩
  intro h
  cases h

/-- C4 (amended): on an envelope whose payload is valid base64, decoding
raises exactly when the byte length is not an exact multiple of the
dtype element width, or when the recorded shape has more than one
dimension and the product of its dimensions differs from the element
count; a recorded shape of at most one dimension is never checked
against the payload, so shape=[4] over a 3-element payload decodes
without error. -/
theorem c4_decode_error_iff (e : BinCodec.Env) (bytes : List Nat)
    (hb : BinCodec.b64decode e.ndarray = some bytes) :
    BinCodec.isError (BinCodec.decode_base64_dict e) = true ↔
      (bytes.length % e.dtype.itemsize ≠ 0 ∨
        (1 < e.shape.length ∧ e.shape.prod ≠ bytes.length / e.dtype.itemsize)) := by
  simp only [BinCodec.decode_base64_dict, hb]
  by_cases h1 : bytes.length % e.dtype.itemsize ≠ 0
  · rw [if_pos h1]
    simp [BinCodec.isError, h1]
  · rw [if_neg h1]
    by_cases h2 : 1 < e.shape.length
    · rw [if_pos h2]
      by_cases h3 : e.shape.prod ≠ bytes.length / e.dtype.itemsize
      · rw [if_pos h3]
        simp [BinCodec.isError, h1, h2, h3]
      · rw [if_neg h3]
        simp [BinCodec.isError, h1, h2, h3]
    · rw [if_neg h2]
      simp [BinCodec.isError, h1, h2]

/-- C4 witness: a three-byte payload under dtype uint16 (element width 2)
is rejected by the decoder. -/
theorem c4_decode_error_iff_witness :
    BinCodec.isError (BinCodec.decode_base64_dict
      ⟨BinCodec.b64encode [1, 2, 3], [4], .uint16⟩) = true := by
  have h := c4_decode_error_iff ⟨BinCodec.b64encode [1, 2, 3], [4], .uint16⟩ [1, 2, 3] rfl
  exact h.mpr (Or.inl (by decide))

/-- C4 counterexample: the envelope with recorded shape [4] over a base64
payload of 3 uint8 elements — the claim says this raises a decode error,
but the decoder returns the 3-element array, ignoring the recorded
one-dimensional shape. -/
theorem c4_shape_mismatch_counterexample :
    BinCodec.decode_base64_dict ⟨BinCodec.b64encode [9, 9, 9], [4], .uint8⟩ =
      Except.ok ⟨.uint8, [3], [9, 9, 9]⟩ ∧
    BinCodec.isError (BinCodec.decode_base64_dict
      ⟨BinCodec.b64encode [9, 9, 9], [4], .uint8⟩) = false :=
  ⟨rfl, rfl⟩

/-- C9: `decode_base64_dict` reshapes to the recorded shape only when it
has more than one dimension; with at most one recorded dimension the
shape field is ignored entirely and the result is the linear buffer
whose length is the decoded byte count divided by the element width. -/
theorem c9_one_dim_shape_ignored (e : BinCodec.Env) (bytes : List Nat)
    (hb : BinCodec.b64decode e.ndarray = some bytes)
    (hm : bytes.length % e.dtype.itemsize = 0)
    (hs : e.shape.length ≤ 1) :
    BinCodec.decode_base64_dict e =
      Except.ok ⟨e.dtype, [bytes.length / e.dtype.itemsize], bytes⟩ := by
  simp only [BinCodec.decode_base64_dict, hb]
  rw [if_neg (by simp [hm])]
  rw [if_neg (by omega)]

/-- C9 witness: recorded shape [5] over a 2-byte uint8 payload decodes to
the 2-element array, the recorded dimension notwithstanding. -/
theorem c9_one_dim_shape_ignored_witness :
    BinCodec.decode_base64_dict ⟨BinCodec.b64encode [1, 2], [5], .uint8⟩ =
      Except.ok ⟨.uint8, [2], [1, 2]⟩ :=
  c9_one_dim_shape_ignored ⟨BinCodec.b64encode [1, 2], [5], .uint8⟩ [1, 2] rfl
    (by decide) (by decide)

theorem BinCodec.decode_elems_spec :
    ∀ l l2 : List BinCodec.DVal, BinCodec.decode_elems l = Except.ok l2 →
      l2.length = l.length ∧
      ∀ j (hj : j < l.length) (hj2 : j < l2.length),
        (∀ e, l.get ⟨j, hj⟩ = BinCodec.DVal.env e →
          ∃ a, BinCodec.decode_base64_dict e = Except.ok a ∧
            l2.get ⟨j, hj2⟩ = BinCodec.DVal.arr a) ∧
        ((l.get ⟨j, hj⟩).isEnv = false → l2.get ⟨j, hj2⟩ = l.get ⟨j, hj⟩) := by
  intro l
  induction l with
  | nil =>
    intro l2 h
    simp only [BinCodec.decode_elems, Except.ok.injEq] at h
    subst h
    refine ⟨rfl, ?_⟩
    intro j hj
    exact absurd hj (by simp)
  | cons el rest ih =>
    intro l2 h
    cases hde : BinCodec.decode_elem el with
    | error err =>
      simp only [BinCodec.decode_elems, hde] at h
      exact Except.noConfusion h
    | ok el2 =>
      cases hder : BinCodec.decode_elems rest with
      | error err =>
        simp only [BinCodec.decode_elems, hde, hder] at h
        exact Except.noConfusion h
      | ok rest2 =>
        simp only [BinCodec.decode_elems, hde, hder, Except.ok.injEq] at h
        subst h
        obtain ⟨ihlen, ihj⟩ := ih rest2 hder
        refine ⟨by simp [ihlen], ?_⟩
        intro j hj hj2
        cases j with
        | zero =>
          constructor
          · intro e he
            simp only [List.get] at he ⊢
            subst he
            simp only [BinCodec.decode_elem] at hde
            cases hd : BinCodec.decode_base64_dict e with
            | error err2 =>
              rw [hd] at hde
              exact Except.noConfusion hde
            | ok a =>
              rw [hd] at hde
              simp only [Except.map, Except.ok.injEq] at hde
              exact ⟨a, rfl, hde.symm⟩
          · intro hne
            simp only [List.get] at hne ⊢
            cases el with
            | env e => simp [BinCodec.DVal.isEnv] at hne
            | arr a =>
              simp only [BinCodec.decode_elem, Except.ok.injEq] at hde
              exact hde.symm
            | list ls =>
              simp only [BinCodec.decode_elem, Except.ok.injEq] at hde
              exact hde.symm
            | other n =>
              simp only [BinCodec.decode_elem, Except.ok.injEq] at hde
              exact hde.symm
        | succ j =>
          simp only [List.length_cons] at hj hj2
          have hj3 : j < rest.length := by omega
          have hj4 : j < rest2.length := by omega
          have := ihj j hj3 hj4
          simpa using this

theorem BinCodec.decode_value_spec (v v2 : BinCodec.DVal)
    (h : BinCodec.decode_value v = Except.ok v2) :
    (∀ e, v = BinCodec.DVal.env e →
      ∃ a, BinCodec.decode_base64_dict e = Except.ok a ∧ v2 = BinCodec.DVal.arr a) ∧
    (∀ l, v = BinCodec.DVal.list l →
      ∃ l2, v2 = BinCodec.DVal.list l2 ∧ BinCodec.decode_elems l = Except.ok l2) ∧
    (v.isEnv = false → (∀ l, v ≠ BinCodec.DVal.list l) → v2 = v) := by
  refine ⟨?_, ?_, ?_⟩
  · intro e he
    subst he
    simp only [BinCodec.decode_value] at h
    cases hd : BinCodec.decode_base64_dict e with
    | error err =>
      rw [hd] at h
      exact Except.noConfusion h
    | ok a =>
      rw [hd] at h
      simp only [Except.map, Except.ok.injEq] at h
      exact ⟨a, rfl, h.symm⟩
  · intro l hl
    subst hl
    simp only [BinCodec.decode_value] at h
    cases hd : BinCodec.decode_elems l with
    | error err =>
      rw [hd] at h
      exact Except.noConfusion h
    | ok l2 =>
      rw [hd] at h
      simp only [Except.map, Except.ok.injEq] at h
      exact ⟨l2, h.symm, rfl⟩
  · intro hne hnl
    cases v with
    | env e => simp [BinCodec.DVal.isEnv] at hne
    | list l => exact absurd rfl (hnl l)
    | arr a =>
      simp only [BinCodec.decode_value, Except.ok.injEq] at h
      exact h.symm
    | other n =>
      simp only [BinCodec.decode_value, Except.ok.injEq] at h
      exact h.symm

/-- C8: for every column mapping accepted by `decode_column_data`, the
result pairs off with the input key by key; a Binary Envelope value is
replaced by its decoded array, a list value is rebuilt with envelope
elements (exactly one list level deep) replaced by decoded arrays and
all other elements — including nested lists, so envelopes two or more
levels deep — returned unchanged, and every non-envelope non-list value
is returned unchanged. -/
theorem c8_decode_column_data (data out : List (String × BinCodec.DVal))
    (h : BinCodec.decode_column_data data = Except.ok out) :
    out.length = data.length ∧
    ∀ i (hi : i < data.length) (hi2 : i < out.length),
      (out.get ⟨i, hi2⟩).1 = (data.get ⟨i, hi⟩).1 ∧
      (∀ e, (data.get ⟨i, hi⟩).2 = BinCodec.DVal.env e →
        ∃ a, BinCodec.decode_base64_dict e = Except.ok a ∧
          (out.get ⟨i, hi2⟩).2 = BinCodec.DVal.arr a) ∧
      (∀ l, (data.get ⟨i, hi⟩).2 = BinCodec.DVal.list l →
        ∃ l2, (out.get ⟨i, hi2⟩).2 = BinCodec.DVal.list l2 ∧ l2.length = l.length ∧
          ∀ j (hj : j < l.length) (hj2 : j < l2.length),
            (∀ e, l.get ⟨j, hj⟩ = BinCodec.DVal.env e →
              ∃ a, BinCodec.decode_base64_dict e = Except.ok a ∧
                l2.get ⟨j, hj2⟩ = BinCodec.DVal.arr a) ∧
            ((l.get ⟨j, hj⟩).isEnv = false → l2.get ⟨j, hj2⟩ = l.get ⟨j, hj⟩)) ∧
      ((data.get ⟨i, hi⟩).2.isEnv = false →
        (∀ l, (data.get ⟨i, hi⟩).2 ≠ BinCodec.DVal.list l) →
        (out.get ⟨i, hi2⟩).2 = (data.get ⟨i, hi⟩).2) := by
  induction data generalizing out with
  | nil =>
    simp only [BinCodec.decode_column_data, Except.ok.injEq] at h
    subst h
    refine ⟨rfl, ?_⟩
    intro i hi
    exact absurd hi (by simp)
  | cons kv rest ih =>
    obtain ⟨k, v⟩ := kv
    cases hdv : BinCodec.decode_value v with
    | error err =>
      simp only [BinCodec.decode_column_data, hdv] at h
      exact Except.noConfusion h
    | ok v2 =>
      cases hdr : BinCodec.decode_column_data rest with
      | error err =>
        simp only [BinCodec.decode_column_data, hdv, hdr] at h
        exact Except.noConfusion h
      | ok rest2 =>
        simp only [BinCodec.decode_column_data, hdv, hdr, Except.ok.injEq] at h
        subst h
        obtain ⟨ihlen, ihi⟩ := ih rest2 hdr
        obtain ⟨hvenv, hvlist, hvother⟩ := BinCodec.decode_value_spec v v2 hdv
        refine ⟨by simp [ihlen], ?_⟩
        intro i hi hi2
        cases i with
        | zero =>
          refine ⟨rfl, ?_, ?_, ?_⟩
          · intro e he
            exact hvenv e he
          · intro l hl
            obtain ⟨l2, hv2, hdl⟩ := hvlist l hl
            obtain ⟨hlen2, hj⟩ := BinCodec.decode_elems_spec l l2 hdl
            exact ⟨l2, hv2, hlen2, hj⟩
          · intro hne hnl
            exact hvother hne hnl
        | succ i =>
          simp only [List.length_cons] at hi hi2
          have hi3 : i < rest.length := by omega
          have hi4 : i < rest2.length := by omega
          have := ihi i hi3 hi4
          simpa using this

/-- C8 witness: a mapping with an envelope column, a list column holding
an envelope next to a plain scalar, and a scalar column decodes with the
same keys: the envelope becomes the decoded array, only the
one-level-deep envelope inside the list is decoded, and the scalar is
untouched. -/
theorem c8_decode_column_data_witness :
    BinCodec.decode_column_data
        [("a", BinCodec.DVal.env ⟨BinCodec.b64encode [7], [1], .uint8⟩),
         ("b", BinCodec.DVal.list
            [BinCodec.DVal.env ⟨BinCodec.b64encode [5], [1], .uint8⟩,
             BinCodec.DVal.other 3]),
         ("c", BinCodec.DVal.other 9)] =
      Except.ok
        [("a", BinCodec.DVal.arr ⟨.uint8, [1], [7]⟩),
         ("b", BinCodec.DVal.list
            [BinCodec.DVal.arr ⟨.uint8, [1], [5]⟩,
             BinCodec.DVal.other 3]),
         ("c", BinCodec.DVal.other 9)] ∧
    ([("a", BinCodec.DVal.arr ⟨.uint8, [1], [7]⟩),
      ("b", BinCodec.DVal.list
        [BinCodec.DVal.arr ⟨.uint8, [1], [5]⟩, BinCodec.DVal.other 3]),
      ("c", BinCodec.DVal.other 9)] : List (String × BinCodec.DVal)).length =
    ([("a", BinCodec.DVal.env ⟨BinCodec.b64encode [7], [1], .uint8⟩),
      ("b", BinCodec.DVal.list
        [BinCodec.DVal.env ⟨BinCodec.b64encode [5], [1], .uint8⟩,
         BinCodec.DVal.other 3]),
      ("c", BinCodec.DVal.other 9)] : List (String × BinCodec.DVal)).length := by
  have h : BinCodec.decode_column_data
      [("a", BinCodec.DVal.env ⟨BinCodec.b64encode [7], [1], .uint8⟩),
       ("b", BinCodec.DVal.list
          [BinCodec.DVal.env ⟨BinCodec.b64encode [5], [1], .uint8⟩,
           BinCodec.DVal.other 3]),
       ("c", BinCodec.DVal.other 9)] =
      Except.ok
        [("a", BinCodec.DVal.arr ⟨.uint8, [1], [7]⟩),
         ("b", BinCodec.DVal.list
            [BinCodec.DVal.arr ⟨.uint8, [1], [5]⟩,
             BinCodec.DVal.other 3]),
         ("c", BinCodec.DVal.other 9)] := rfl
  exact ⟨h, (c8_decode_column_data _ _ h).1⟩

theorem Pipeline.tolist_cons (n0 : Nat) (rest : List Nat) (ws : List Pipeline.PyVal) :
    ∃ l, Pipeline.tolist (n0 :: rest) ws = Pipeline.PyVal.list l := by
  cases rest with
  | nil => exact ⟨ws, rfl⟩
  | cons n1 rest2 => exact ⟨_, rfl⟩

theorem Pipeline.transform_array_to_list_is_list (a : Pipeline.NDArray)
    (hdim : a.shape ≠ []) :
    ∃ l, Pipeline.transform_array_to_list a = Pipeline.PyVal.list l := by
  obtain ⟨n0, rest, hsh⟩ : ∃ n0 rest, a.shape = n0 :: rest := by
    cases h : a.shape with
    | nil => exact absurd h hdim
    | cons n0 rest => exact ⟨n0, rest, rfl⟩
  unfold Pipeline.transform_array_to_list
  split
  · rw [hsh]
    exact Pipeline.tolist_cons _ _ _
  · rw [hsh]
    exact Pipeline.tolist_cons _ _ _

theorem Pipeline.encoding_disabled_iff (a : Pipeline.NDArray) (s : Settings) :
    Pipeline.encoding_disabled a s = true ↔
      (s.use_binary_arrays = false ∨ a.dtype ∉ array_types ∨
        a.shape.prod < s.binary_array_cutoff) := by
  unfold Pipeline.encoding_disabled
  by_cases h1 : s.use_binary_arrays = false
  · simp [h1]
  · rw [if_neg h1]
    by_cases h2 : a.dtype ∉ array_types
    · simp [h1, h2]
    · rw [if_neg h2]
      simp [h1, h2]

/-- C2 (amended): for every array with at least one dimension,
`serialize_array` returns a list exactly when the global binary-arrays
setting is off, or force_list is true, or the dtype is outside the
whitelist, or the element count is below the cutoff; otherwise it
returns the Binary Envelope record.  (A zero-dimensional array follows
the same path decision, but its list-path output is its sole scalar
rather than a list.) -/
theorem c2_serialize_array_paths (a : Pipeline.NDArray) (fl : Bool) (s : Settings)
    (hdim : a.shape ≠ []) :
    ((∃ l, Pipeline.serialize_array a fl s = Pipeline.PyVal.list l) ↔
      (s.use_binary_arrays = false ∨ fl = true ∨ a.dtype ∉ array_types ∨
        a.shape.prod < s.binary_array_cutoff)) ∧
    ((s.use_binary_arrays = true ∧ fl = false ∧ a.dtype ∈ array_types ∧
        s.binary_array_cutoff ≤ a.shape.prod) →
      Pipeline.serialize_array a fl s = Pipeline.PyVal.envelope a) := by
  have hdis := Pipeline.encoding_disabled_iff a s
  by_cases hc : (Pipeline.encoding_disabled a s || fl) = true
  · have hser : Pipeline.serialize_array a fl s = Pipeline.transform_array_to_list a := by
      unfold Pipeline.serialize_array
      rw [if_pos hc]
    obtain ⟨l, hl⟩ := Pipeline.transform_array_to_list_is_list a hdim
    constructor
    · constructor
      · intro _
        rcases Bool.or_eq_true_iff.mp hc with h | h
        · rcases hdis.mp h with h1 | h1 | h1
          · exact Or.inl h1
          · exact Or.inr (Or.inr (Or.inl h1))
          · exact Or.inr (Or.inr (Or.inr h1))
        · exact Or.inr (Or.inl h)
      · intro _
        exact ⟨l, by rw [hser, hl]⟩
    · rintro ⟨h1, h2, h3, h4⟩
      exfalso
      rcases Bool.or_eq_true_iff.mp hc with h | h
      · rcases hdis.mp h with h5 | h5 | h5
        · rw [h1] at h5
          cases h5
        · exact h5 h3
        · omega
      · rw [h2] at h
        cases h
  · have hser : Pipeline.serialize_array a fl s = Pipeline.PyVal.envelope a := by
      unfold Pipeline.serialize_array
      rw [if_neg hc]
      rfl
    have hparts : Pipeline.encoding_disabled a s = false ∧ fl = false := by
      rcases Bool.or_eq_false_iff.mp (Bool.not_eq_true _ |>.mp hc) with ⟨ha, hb⟩
      exact ⟨ha, hb⟩
    constructor
    · constructor
      · rintro ⟨l, hl⟩
        rw [hser] at hl
        cases hl
      · intro h
        exfalso
        rcases h with h | h | h | h
        · have : Pipeline.encoding_disabled a s = true := hdis.mpr (Or.inl h)
          rw [hparts.1] at this
          cases this
        · rw [hparts.2] at h
          cases h
        · have : Pipeline.encoding_disabled a s = true := hdis.mpr (Or.inr (Or.inl h))
          rw [hparts.1] at this
          cases this
        · have : Pipeline.encoding_disabled a s = true := hdis.mpr (Or.inr (Or.inr h))
          rw [hparts.1] at this
          cases this
    · intro _
      exact hser

/-- C2 witness: with force_list true, a one-element float64 array comes
back as the plain list of its value. -/
theorem c2_serialize_array_paths_witness :
    (∃ l, Pipeline.serialize_array ⟨.float64, [1], [.finite 5]⟩ true ⟨true, 0⟩ =
      Pipeline.PyVal.list l) ∧
    Pipeline.serialize_array ⟨.float64, [1], [.finite 5]⟩ true ⟨true, 0⟩ =
      Pipeline.PyVal.list [Pipeline.PyVal.num (.finite 5)] := by
  refine ⟨?_, rfl⟩
  exact (c2_serialize_array_paths ⟨.float64, [1], [.finite 5]⟩ true ⟨true, 0⟩
    (by decide)).1.mpr (Or.inr (Or.inl rfl))

/-- C2 counterexample: a zero-dimensional float64 array with binary
encoding disabled takes the list path yet returns its bare scalar — not
a list — so the claimed dichotomy list-vs-envelope does not hold for
every array. -/
theorem c2_zero_dim_counterexample :
    Pipeline.encoding_disabled ⟨.float64, [], [.finite 3]⟩ ⟨false, 250⟩ = true ∧
    Pipeline.serialize_array ⟨.float64, [], [.finite 3]⟩ false ⟨false, 250⟩ =
      Pipeline.PyVal.num (.finite 3) ∧
    Pipeline.isList (Pipeline.serialize_array ⟨.float64, [], [.finite 3]⟩ false ⟨false, 250⟩) =
      false :=
  ⟨rfl, rfl, rfl⟩

theorem Pipeline.mask_sanitize (vs : List FVal) :
    Pipeline.mask_assign FVal.isneginf (.str "-Infinity") vs
      (Pipeline.mask_assign FVal.isposinf (.str "Infinity") vs
        (Pipeline.mask_assign FVal.isnan (.str "NaN") vs
          (vs.map Pipeline.PyVal.num))) =
    vs.map Pipeline.sanitized_elem := by
  induction vs with
  | nil => rfl
  | cons v vs ih =>
    simp only [List.map_cons, Pipeline.mask_assign, List.zipWith_cons_cons] at ih ⊢
    rw [ih]
    cases v <;> rfl

/-- C3: for every floating-point array on the list path, if some element
is non-finite then the exported sequence carries exactly the string NaN
at each NaN position, Infinity at each positive-infinity position,
-Infinity at each negative-infinity position, and the original numeric
value at every finite position; and if no element is non-finite the
array is exported as its unchanged numbers. -/
theorem c3_list_path_sanitization (a : Pipeline.NDArray)
    (hk : a.dtype.kind = Kind.floating) :
    ((a.vdata.any fun v => !v.isfinite) = true →
      Pipeline.transform_array_to_list a =
        Pipeline.tolist a.shape (a.vdata.map Pipeline.sanitized_elem)) ∧
    ((a.vdata.any fun v => !v.isfinite) = false →
      Pipeline.transform_array_to_list a =
        Pipeline.tolist a.shape (a.vdata.map Pipeline.PyVal.num) ∧
      ∀ v ∈ a.vdata, ∃ q, v = FVal.finite q) ∧
    Pipeline.sanitized_elem .nan = .str "NaN" ∧
    Pipeline.sanitized_elem .posinf = .str "Infinity" ∧
    Pipeline.sanitized_elem .neginf = .str "-Infinity" ∧
    ∀ q, Pipeline.sanitized_elem (.finite q) = Pipeline.PyVal.num (.finite q) := by
  have hkind : Pipeline.kindUIF a.dtype = true := by
    unfold Pipeline.kindUIF
    rw [hk]
  refine ⟨?_, ?_, rfl, rfl, rfl, fun q => rfl⟩
  · intro hany
    unfold Pipeline.transform_array_to_list
    rw [if_pos (by rw [hkind, hany]; rfl)]
    rw [Pipeline.mask_sanitize]
  · intro hany
    constructor
    · unfold Pipeline.transform_array_to_list
      rw [if_neg (by rw [hkind, hany]; simp)]
    · intro v hv
      have hfin := List.any_eq_false.mp hany v hv
      cases v with
      | finite q => exact ⟨q, rfl⟩
      | nan => simp [FVal.isfinite] at hfin
      | posinf => simp [FVal.isfinite] at hfin
      | neginf => simp [FVal.isfinite] at hfin

/-- C3 witness: the float64 array [1, NaN, +Inf, -Inf] exports as the
list [1, NaN-string, Infinity-string, -Infinity-string]. -/
theorem c3_list_path_sanitization_witness :
    Pipeline.transform_array_to_list ⟨.float64, [4], [.finite 1, .nan, .posinf, .neginf]⟩ =
      Pipeline.PyVal.list [Pipeline.PyVal.num (.finite 1), Pipeline.PyVal.str "NaN",
        Pipeline.PyVal.str "Infinity", Pipeline.PyVal.str "-Infinity"] := by
  have h := (c3_list_path_sanitization
    ⟨.float64, [4], [.finite 1, .nan, .posinf, .neginf]⟩ rfl).1 rfl
  rw [h]
  rfl

/-- C5: a datetime-kind (or timedelta-kind) array is first converted to
fractional milliseconds since epoch — its microsecond-resolution
integer representation divided by 1000, as a float64 array of the same
shape — and only then reaches the encoding-path decision of
`serialize_array`. -/
theorem c5_temporal_normalization (obj : Pipeline.NDArray)
    (h : obj.dtype.kind = Kind.datetimeKind ∨ obj.dtype.kind = Kind.timedeltaKind) :
    Pipeline.temporal_normalize obj =
      ⟨.float64, obj.shape, obj.vdata.map Pipeline.div1000⟩ ∧
    (∀ fl s, Pipeline.transform_array obj fl s =
      Pipeline.serialize_array (Pipeline.temporal_normalize obj) fl s) ∧
    ∀ q : ℚ, Pipeline.div1000 (.finite q) = .finite (q / 1000) := by
  refine ⟨?_, fun fl s => rfl, fun q => rfl⟩
  rcases h with h | h
  · unfold Pipeline.temporal_normalize
    rw [if_pos h]
  · unfold Pipeline.temporal_normalize
    rw [if_neg (by rw [h]; simp), if_pos h]

/-- C5 witness: the datetime array holding 1970-01-01T00:00:00.001, i.e.
1000 microseconds after the epoch, normalizes to the float64 array
holding exactly 1.0 before any encoding-path decision. -/
theorem c5_temporal_normalization_witness :
    Pipeline.temporal_normalize ⟨.datetime64, [1], [.finite 1000]⟩ =
      ⟨.float64, [1], [.finite 1]⟩ := by
  have h := (c5_temporal_normalization ⟨.datetime64, [1], [.finite 1000]⟩ (Or.inl rfl)).1
  rw [h]
  norm_num [Pipeline.div1000]

theorem Pipeline.traverse_items_eq_map (datum : List Pipeline.PyVal) (s : Settings) :
    Pipeline.traverse_items datum s =
      datum.map (fun item => Pipeline.traverse_item item s) := by
  induction datum with
  | nil => simp [Pipeline.traverse_items]
  | cons x xs ih => simp [Pipeline.traverse_items, ih]

/-- C6: on any input that is not a sequence of uniform arrays, the
traversal maps its loop body over the children: sublists and subtuples
are recursed into (both rebuilt as lists), a NaN scalar becomes the
string NaN, positive infinity the string Infinity, negative infinity
the string -Infinity, finite numbers and all other scalars pass through
unchanged; in particular [[1.0, NaN], [2.0, Infinity]] traverses to
[[1.0, NaN-string], [2.0, Infinity-string]]. -/
theorem c6_traverse_nested (datum : List Pipeline.PyVal) (s : Settings)
    (h : datum.all Pipeline.isArr = false) :
    Pipeline.traverse_data datum s =
      datum.map (fun item => Pipeline.traverse_item item s) ∧
    (∀ l, Pipeline.traverse_item (.list l) s = .list (Pipeline.traverse_data l s)) ∧
    (∀ l, Pipeline.traverse_item (.tuple l) s = .list (Pipeline.traverse_data l s)) ∧
    Pipeline.traverse_item (.num .nan) s = .str "NaN" ∧
    Pipeline.traverse_item (.num .posinf) s = .str "Infinity" ∧
    Pipeline.traverse_item (.num .neginf) s = .str "-Infinity" ∧
    (∀ q, Pipeline.traverse_item (.num (.finite q)) s = .num (.finite q)) ∧
    (∀ x, Pipeline.traverse_item (.str x) s = .str x) ∧
    (∀ n, Pipeline.traverse_item (.other n) s = .other n) ∧
    Pipeline.traverse_data
        [.list [.num (.finite 1), .num .nan], .list [.num (.finite 2), .num .posinf]] s =
      [.list [.num (.finite 1), .str "NaN"], .list [.num (.finite 2), .str "Infinity"]] := by
  refine ⟨?_, fun l => by simp [Pipeline.traverse_item],
    fun l => by simp [Pipeline.traverse_item],
    by simp [Pipeline.traverse_item, FVal.isnan],
    by simp [Pipeline.traverse_item, FVal.isnan, FVal.isposinf],
    by simp [Pipeline.traverse_item, FVal.isnan, FVal.isposinf, FVal.isneginf],
    fun q => by simp [Pipeline.traverse_item, FVal.isnan, FVal.isposinf, FVal.isneginf],
    fun x => by simp [Pipeline.traverse_item],
    fun n => by simp [Pipeline.traverse_item], ?_⟩
  · rw [Pipeline.traverse_data]
    rw [if_neg (by simp [h])]
    exact Pipeline.traverse_items_eq_map datum s
  · simp [Pipeline.traverse_data, Pipeline.traverse_items, Pipeline.traverse_item,
      Pipeline.isArr, FVal.isnan, FVal.isposinf, FVal.isneginf]

/-- C6 witness: the concrete nested input [[1.0, NaN], [2.0, Infinity]]
traverses to [[1.0, NaN-string], [2.0, Infinity-string]]. -/
theorem c6_traverse_nested_witness :
    Pipeline.traverse_data
        [.list [.num (.finite 1), .num .nan], .list [.num (.finite 2), .num .posinf]]
        ⟨true, 250⟩ =
      [.list [.num (.finite 1), .str "NaN"],
       .list [.num (.finite 2), .str "Infinity"]] := by
  have h := c6_traverse_nested
    [.list [.num (.finite 1), .num .nan], .list [.num (.finite 2), .num .posinf]]
    ⟨true, 250⟩ rfl
  exact h.2.2.2.2.2.2.2.2.2

/-- C7: `transform_column_source_data` returns a new mapping with
exactly the input keys, in order — hence an identical key set; the
operation is a pure function of the input, which (with its contained
arrays) is left untouched. -/
theorem c7_transform_column_source_data_keys
    (data : List (String × Pipeline.CVal)) (s : Settings) :
    (Pipeline.transform_column_source_data data s).map Prod.fst = data.map Prod.fst ∧
    (Pipeline.transform_column_source_data data s).length = data.length := by
  unfold Pipeline.transform_column_source_data
  constructor
  · rw [List.map_map]
    rfl
  · simp

theorem Pipeline.tupleFreeList_eq_all (l : List Pipeline.PyVal) :
    Pipeline.tupleFreeList l = l.all Pipeline.tupleFree := by
  induction l with
  | nil => simp [Pipeline.tupleFreeList]
  | cons x xs ih => simp [Pipeline.tupleFreeList, ih]

theorem Pipeline.chunksAux_subset {α : Type} (k : Nat) :
    ∀ (fuel : Nat) (l c : List α), c ∈ Pipeline.chunksAux k fuel l → ∀ x ∈ c, x ∈ l := by
  intro fuel
  induction fuel with
  | zero =>
    intro l c hc
    simp [Pipeline.chunksAux] at hc
  | succ fuel ih =>
    intro l c hc x hx
    cases l with
    | nil => simp [Pipeline.chunksAux] at hc
    | cons y ys =>
      simp only [Pipeline.chunksAux] at hc
      rcases List.mem_cons.mp hc with rfl | hc2
      · exact List.take_subset _ _ hx
      · exact List.drop_subset _ _ (ih _ _ hc2 x hx)

theorem Pipeline.tupleFree_tolist :
    ∀ (shape : List Nat) (ws : List Pipeline.PyVal),
      (∀ w ∈ ws, Pipeline.tupleFree w = true) →
      Pipeline.tupleFree (Pipeline.tolist shape ws) = true := by
  intro shape
  induction shape with
  | nil =>
    intro ws hw
    cases ws with
    | nil => simp [Pipeline.tolist, Pipeline.tupleFree]
    | cons w ws2 =>
      simp only [Pipeline.tolist, List.headD_cons]
      exact hw w (by simp)
  | cons n0 rest ih =>
    intro ws hw
    cases rest with
    | nil =>
      simp only [Pipeline.tolist, Pipeline.tupleFree, Pipeline.tupleFreeList_eq_all,
        List.all_eq_true]
      exact hw
    | cons n1 rest2 =>
      simp only [Pipeline.tolist, Pipeline.tupleFree, Pipeline.tupleFreeList_eq_all,
        List.all_eq_true]
      intro w hw2
      rw [List.mem_map] at hw2
      obtain ⟨c, hc, rfl⟩ := hw2
      apply ih
      intro x hx
      apply hw
      unfold Pipeline.chunks at hc
      by_cases hk : (n1 :: rest2).prod = 0
      · rw [if_pos hk] at hc
        simp at hc
      · rw [if_neg hk] at hc
        exact Pipeline.chunksAux_subset _ _ _ _ hc x hx

theorem Pipeline.tupleFree_transform_array (a : Pipeline.NDArray) (fl : Bool)
    (s : Settings) :
    Pipeline.tupleFree (Pipeline.transform_array a fl s) = true := by
  unfold Pipeline.transform_array Pipeline.serialize_array
  by_cases hc : (Pipeline.encoding_disabled (Pipeline.temporal_normalize a) s || fl) = true
  · rw [if_pos hc]
    unfold Pipeline.transform_array_to_list
    by_cases h2 : (Pipeline.kindUIF (Pipeline.temporal_normalize a).dtype &&
        (Pipeline.temporal_normalize a).vdata.any fun v => !v.isfinite) = true
    · rw [if_pos h2, Pipeline.mask_sanitize]
      apply Pipeline.tupleFree_tolist
      intro w hw
      rw [List.mem_map] at hw
      obtain ⟨v, _, rfl⟩ := hw
      cases v <;> rfl
    · rw [if_neg h2]
      apply Pipeline.tupleFree_tolist
      intro w hw
      rw [List.mem_map] at hw
      obtain ⟨v, _, rfl⟩ := hw
      rfl
  · rw [if_neg hc]
    rfl

theorem Pipeline.traverse_tupleFree (n : Nat) :
    (∀ (datum : List Pipeline.PyVal) (s : Settings), sizeOf datum ≤ n →
      (Pipeline.traverse_data datum s).all Pipeline.tupleFree = true) ∧
    (∀ (item : Pipeline.PyVal) (s : Settings), sizeOf item ≤ n →
      Pipeline.tupleFree (Pipeline.traverse_item item s) = true) := by
  induction n using Nat.strong_induction_on with
  | _ n ih =>
    constructor
    · intro datum s hsz
      by_cases hall : datum.all Pipeline.isArr = true
      · rw [Pipeline.traverse_data, if_pos hall, List.all_eq_true]
        intro w hw
        rw [List.mem_map] at hw
        obtain ⟨el, hel, rfl⟩ := hw
        have harr : Pipeline.isArr el = true := List.all_eq_true.mp hall el hel
        cases el with
        | arr a => exact Pipeline.tupleFree_transform_array a false s
        | num v => simp [Pipeline.isArr] at harr
        | str x => simp [Pipeline.isArr] at harr
        | other m => simp [Pipeline.isArr] at harr
        | list l => simp [Pipeline.isArr] at harr
        | tuple l => simp [Pipeline.isArr] at harr
        | envelope a => simp [Pipeline.isArr] at harr
      · rw [Pipeline.traverse_data, if_neg hall, Pipeline.traverse_items_eq_map,
          List.all_eq_true]
        intro w hw
        rw [List.mem_map] at hw
        obtain ⟨item, hitem, rfl⟩ := hw
        have h1 : sizeOf item < sizeOf datum := List.sizeOf_lt_of_mem hitem
        have h3 : n - 1 < n := by omega
        exact (ih (n - 1) h3).2 item s (by omega)
    · intro item s hsz
      cases item with
      | list l =>
        simp only [Pipeline.traverse_item, Pipeline.tupleFree, Pipeline.tupleFreeList_eq_all]
        have h1 : sizeOf l < sizeOf (Pipeline.PyVal.list l) := by
          simp
        have h3 : n - 1 < n := by omega
        exact (ih (n - 1) h3).1 l s (by omega)
      | tuple l =>
        simp only [Pipeline.traverse_item, Pipeline.tupleFree, Pipeline.tupleFreeList_eq_all]
        have h1 : sizeOf l < sizeOf (Pipeline.PyVal.tuple l) := by
          simp
        have h3 : n - 1 < n := by omega
        exact (ih (n - 1) h3).1 l s (by omega)
      | num v =>
        cases v <;>
          simp [Pipeline.traverse_item, Pipeline.tupleFree, FVal.isnan, FVal.isposinf,
            FVal.isneginf]
      | str x => simp [Pipeline.traverse_item, Pipeline.tupleFree]
      | other m => simp [Pipeline.traverse_item, Pipeline.tupleFree]
      | arr a => simp [Pipeline.traverse_item, Pipeline.tupleFree]
      | envelope a => simp [Pipeline.traverse_item, Pipeline.tupleFree]

/-- C10: a sequence whose direct children are all numpy arrays — the
empty sequence vacuously included — takes the fast path mapping the
array transform over the children, and the traversal output never
contains a tuple: every sequence is rebuilt as a list. -/
theorem c10_traverse_output_shape (datum : List Pipeline.PyVal) (s : Settings) :
    (datum.all Pipeline.isArr = true →
      Pipeline.traverse_data datum s = datum.map (fun el =>
        match el with
        | Pipeline.PyVal.arr a => Pipeline.transform_array a false s
        | el => el)) ∧
    Pipeline.traverse_data [] s = [] ∧
    (Pipeline.traverse_data datum s).all Pipeline.tupleFree = true := by
  refine ⟨?_, by simp [Pipeline.traverse_data], ?_⟩
  · intro hall
    rw [Pipeline.traverse_data, if_pos hall]
  · exact (Pipeline.traverse_tupleFree (sizeOf datum)).1 datum s (le_refl _)

/-- C10 witness: a singleton all-arrays sequence takes the fast path,
and the traversal of a tuple-bearing input is tuple-free. -/
theorem c10_traverse_output_shape_witness :
    Pipeline.traverse_data [Pipeline.PyVal.arr ⟨.float64, [1], [.finite 2]⟩] ⟨false, 250⟩ =
      [Pipeline.transform_array ⟨.float64, [1], [.finite 2]⟩ false ⟨false, 250⟩] ∧
    (Pipeline.traverse_data [Pipeline.PyVal.tuple [Pipeline.PyVal.num .nan]]
        ⟨false, 250⟩).all Pipeline.tupleFree = true := by
  have h1 := (c10_traverse_output_shape [Pipeline.PyVal.arr ⟨.float64, [1], [.finite 2]⟩]
    ⟨false, 250⟩).1 rfl
  have h2 := (c10_traverse_output_shape [Pipeline.PyVal.tuple [Pipeline.PyVal.num .nan]]
    ⟨false, 250⟩).2.2
  exact ⟨by rw [h1]; rfl, h2⟩
